import Mathlib

/-!
Shallow embedding of the WebSocket-to-PostgreSQL benchmark server
(server source: main.go) and proofs about its ingestion pipeline.

The server has three modes:
  naive    - synchronous INSERT per message on the receiving path,
  buffered - a channel feeding a fixed pool of workers, single INSERT each,
  bulk     - a channel feeding workers that accumulate batches and flush
             them as one multi-value INSERT, on a size or a time trigger.

All modes share one atomic counter insertedCount: after each store write
the worker adds the number of messages written and then, by a separate
atomic load, compares the counter to totalMessages, logging a one-time
completion message on equality.

The embedding below models machine integers as Nat (the counter never
leaves the range of int64 at the configured magnitudes), the fallible
db.Exec as an oracle list of error outcomes consumed one per call, and
the concurrent completion check as an explicit interleaving semantics of
atomic add and atomic load-compare events.
-/

namespace WsPg

/-- Configuration constants of the server (const block of main.go). -/
def channelBufferSize : Nat := 500000

/-- Number of worker goroutines in buffered and bulk modes. -/
def workerCount : Nat := 4

/-- Size threshold of a bulk batch. -/
def batchSize : Nat := 5000

/-- Number of load-generator clients (var block of main.go). -/
def clientCount : Nat := 10

/-- Messages sent per client. -/
def messagesPerClient : Nat := 100000

/-- Statically configured expected total, clientCount * messagesPerClient. -/
def totalMessages : Nat := clientCount * messagesPerClient

/-- The single-row INSERT statement used by naive and buffered modes. -/
def singleInsertQuery : String := "INSERT INTO messages (payload) VALUES ($1)"

/-- buildBulkInsert from main.go: one positional placeholder per batched
message, arguments in batch order, one multi-value INSERT statement. -/
def buildBulkInsert (batch : List String) : String × List String :=
  let values := batch.mapIdx (fun i _ => "($" ++ Nat.repr (i + 1) ++ ")")
  let args := batch.map (fun msg => msg)
  ("INSERT INTO messages (payload) VALUES " ++ String.intercalate "," values, args)

/-- One executed store write: the statement text, the bound arguments and
whether db.Exec reported an error for it. -/
structure ExecRec where
  query : String
  args : List String
  failed : Bool
deriving Repr, DecidableEq

/-- Shared server state: the atomic counter insertedCount, the count of
completion log lines emitted so far, the log of executed statements, and
the oracle of upcoming db.Exec outcomes (true means the write fails;
an exhausted oracle means every further write succeeds). -/
structure SrvState where
  inserted : Nat
  signals : Nat
  execs : List ExecRec
  errs : List Bool
deriving Repr, DecidableEq

/-- Initial server state with a chosen error oracle. -/
def mkSrv (errs : List Bool) : SrvState :=
  { inserted := 0, signals := 0, execs := [], errs := errs }

/-- db.Exec: record the statement with the next oracle outcome; an error
is logged (recorded) and execution continues either way. -/
def dbExec (q : String) (args : List String) (s : SrvState) : SrvState :=
  { s with execs := s.execs ++ [⟨q, args, s.errs.headD false⟩], errs := s.errs.tail }

/-- The completion-tracking sequence after a write: atomically add n to
insertedCount, then load it again and log the completion line when the
loaded value equals the expected total. In this sequential model the
load reads the value the add just wrote; the interleaved model for the
concurrent reading is given by cstep below. -/
def recordInserted (total n : Nat) (s : SrvState) : SrvState :=
  let s1 := { s with inserted := s.inserted + n }
  if s1.inserted = total then { s1 with signals := s1.signals + 1 } else s1

/-- Body shared by the naive handler loop and a buffered worker iteration:
one single-row INSERT for the message, then the counter update and the
completion check. The counter moves by 1 whether or not the write failed. -/
def insertOne (total : Nat) (msg : String) (s : SrvState) : SrvState :=
  recordInserted total 1 (dbExec singleInsertQuery [msg] s)

/-- runNaive: the connection handler processes each received message
synchronously in order. -/
def runNaive (total : Nat) (msgs : List String) (s : SrvState) : SrvState :=
  msgs.foldl (fun s msg => insertOne total msg s) s

/-- runBuffered: the stream of messages a worker drains from the channel,
each processed by the same single-INSERT body as naive mode. -/
def runBuffered (total : Nat) (msgs : List String) (s : SrvState) : SrvState :=
  msgs.foldl (fun s msg => insertOne total msg s) s

/-- State of one bulkInsertWorker: the shared server state, the private
batch, and a ghost log of the batch lengths observed at the moment a
size-triggered flush starts (used to state the batch bound). -/
structure BulkState where
  shared : SrvState
  batch : List String
  sizeFlushes : List Nat
deriving Repr, DecidableEq

/-- flush from bulkInsertWorker: an empty batch returns immediately;
otherwise build the multi-value INSERT, execute it (an error is logged
and ignored), add the batch length to insertedCount, perform the
completion check, and reset the batch to empty. -/
def flush (total : Nat) (b : BulkState) : BulkState :=
  if b.batch = [] then b
  else
    let qa := buildBulkInsert b.batch
    let s := dbExec qa.1 qa.2 b.shared
    let s := recordInserted total b.batch.length s
    { b with shared := s, batch := [] }

/-- Events observed by the select loop of a bulk worker: a message
arriving from the channel, or the ticker firing. -/
inductive BulkEvent where
  | msg (m : String)
  | tick
deriving Repr, DecidableEq

/-- One iteration of the bulk worker select loop: on a message, append it
to the batch and flush when the length has reached batchSize (recording
the length in the ghost log); on a tick, flush whatever is there. -/
def bulkStep (total : Nat) (b : BulkState) (ev : BulkEvent) : BulkState :=
  match ev with
  | BulkEvent.msg m =>
      let b1 := { b with batch := b.batch ++ [m] }
      if batchSize ≤ b1.batch.length then
        flush total { b1 with sizeFlushes := b1.sizeFlushes ++ [b1.batch.length] }
      else b1
  | BulkEvent.tick => flush total b

/-- A bulk worker run over a sequence of select-loop events. -/
def runBulkWorker (total : Nat) (evs : List BulkEvent) (b : BulkState) : BulkState :=
  evs.foldl (bulkStep total) b

/-- The bulk mode system: the shared server state and the private batch
of each of the workers spawned by runBulk. -/
structure BulkSys where
  shared : SrvState
  batches : List (List String)
deriving Repr, DecidableEq

/-- One scheduled step of the bulk system: the named worker consumes one
select-loop event; an index outside the worker pool changes nothing. -/
def sysStep (total : Nat) (s : BulkSys) (ev : Nat × BulkEvent) : BulkSys :=
  match s.batches[ev.1]? with
  | none => s
  | some batch =>
      let b := bulkStep total ⟨s.shared, batch, []⟩ ev.2
      ⟨b.shared, s.batches.set ev.1 b.batch⟩

/-- A bulk system run over a schedule of worker events. -/
def runBulkSys (total : Nat) (evs : List (Nat × BulkEvent)) (s : BulkSys) : BulkSys :=
  evs.foldl (sysStep total) s

/-- Final timer-triggered flush of every worker: each ticker eventually
fires once more after message delivery stops. -/
def flushAll (total : Nat) (s : BulkSys) : BulkSys :=
  runBulkSys total ((List.range s.batches.length).map (fun w => (w, BulkEvent.tick))) s

/-- Number of messages delivered by a schedule of worker events. -/
def countMsgs : List (Nat × BulkEvent) → Nat
  | [] => 0
  | (_, BulkEvent.msg _) :: evs => countMsgs evs + 1
  | (_, BulkEvent.tick) :: evs => countMsgs evs

/-- Total number of message payloads across a log of executed writes. -/
def payloadCount (execs : List ExecRec) : Nat :=
  (execs.map (fun r => r.args.length)).sum

/-- Total number of messages sitting in worker batches. -/
def batchSum (batches : List (List String)) : Nat :=
  (batches.map List.length).sum

/-- State of the intake channel together with the ghost history of
messages sent into it and messages received from it. -/
structure ChanState where
  buf : List String
  sent : List String
  received : List String
deriving Repr, DecidableEq

/-- Semantics of the bounded intake channel: a send is enabled only when
the buffer is below capacity (a sender facing a full channel blocks
until a transition frees space; there is no error and no drop
transition), and a receive takes the oldest element. -/
inductive ChanStep (cap : Nat) : ChanState → ChanState → Prop
  | send (m : String) (s : ChanState) (h : s.buf.length < cap) :
      ChanStep cap s ⟨s.buf ++ [m], s.sent ++ [m], s.received⟩
  | recv (m : String) (rest : List String) (s : ChanState) (h : s.buf = m :: rest) :
      ChanStep cap s ⟨rest, s.sent, s.received ++ [m]⟩

/-- The channel as created by runBuffered and runBulk: empty. -/
def chanInit : ChanState := ⟨[], [], []⟩

/-- States of the intake channel reachable from the empty channel. -/
def ChanReach (cap : Nat) (s : ChanState) : Prop :=
  Relation.ReflTransGen (ChanStep cap) chanInit s

/-- Atomic events of the completion-tracking code as the hardware sees
them: the atomic.AddInt64 call adding k, and the separate
atomic.LoadInt64 call compared against the expected total. -/
inductive CAct where
  | add (k : Nat)
  | check
deriving Repr, DecidableEq

/-- Effect of one atomic event on (counter value, completion lines
emitted): add moves the counter; check emits a completion line exactly
when the loaded value equals the total. This is the per-event semantics
of the AddInt64 line followed by the LoadInt64 comparison in all three
modes of main.go. -/
def cstep (total : Nat) (cs : Nat × Nat) (a : Nat × CAct) : Nat × Nat :=
  match a.2 with
  | CAct.add k => (cs.1 + k, cs.2)
  | CAct.check => (cs.1, if cs.1 = total then cs.2 + 1 else cs.2)

/-- Run a schedule of atomic events from counter 0 with no signal yet. -/
def crun (total : Nat) (sched : List (Nat × CAct)) : Nat × Nat :=
  sched.foldl (cstep total) (0, 0)

/-- The subsequence of atomic events performed by worker w. -/
def wactions (w : Nat) (sched : List (Nat × CAct)) : List CAct :=
  (sched.filter (fun a => a.1 == w)).map (fun a => a.2)

/-- State machine accepting alternations add, check, add, check, ...:
the argument records whether a check is currently owed. Each worker
performs exactly this alternation, because in the source the add and
the load-compare are consecutive statements of the same loop body. -/
def okFrom : Bool → List CAct → Bool
  | false, [] => true
  | true, [] => false
  | false, CAct.add _ :: l => okFrom true l
  | false, CAct.check :: _ => false
  | true, CAct.check :: l => okFrom false l
  | true, CAct.add _ :: _ => false

/-- A per-worker event sequence is well formed when it is a complete
sequence of add-check pairs. -/
def isPairs (l : List CAct) : Bool := okFrom false l

/-- Sum of all increments in a schedule of atomic events. -/
def kOf (a : Nat × CAct) : Nat :=
  match a.2 with
  | CAct.add k => k
  | CAct.check => 0

/-- Total amount added to the counter by a schedule. -/
def totalAdds (sched : List (Nat × CAct)) : Nat := (sched.map kOf).sum

/-- A chain of k sequential add-check pairs performed by worker 0,
modelling k messages fully processed one after the other. -/
def pairChain : Nat → List (Nat × CAct)
  | 0 => []
  | k + 1 => (0, CAct.add 1) :: (0, CAct.check) :: pairChain k

/-- The corresponding per-worker action sequence. -/
def cpairs : Nat → List CAct
  | 0 => []
  | k + 1 => CAct.add 1 :: CAct.check :: cpairs k

/-- An interleaving of two workers in which worker 0 processes 999999
messages and worker 1 processes one, but both perform their increment
before either performs its load: both loads then read totalMessages. -/
def badSched : List (Nat × CAct) :=
  pairChain 999998 ++
    [(0, CAct.add 1), (1, CAct.add 1), (0, CAct.check), (1, CAct.check)]

/-! Helper lemmas about buildBulkInsert, flush and the counting bookkeeping. -/

theorem mapIdx_const (g : Nat → β) (l : List α) :
    l.mapIdx (fun i _ => g i) = (List.range l.length).map g := by
  induction l using List.reverseRecOn with
  | nil => simp
  | append_singleton xs x ih =>
      rw [List.mapIdx_append_one, ih]
      simp [List.range_succ]

theorem buildBulkInsert_args (batch : List String) :
    (buildBulkInsert batch).2 = batch := by
  simp [buildBulkInsert]

theorem buildBulkInsert_query (batch : List String) :
    (buildBulkInsert batch).1 =
      "INSERT INTO messages (payload) VALUES " ++
        String.intercalate ","
          ((List.range batch.length).map (fun i => "($" ++ Nat.repr (i + 1) ++ ")")) := by
  simp [buildBulkInsert, mapIdx_const (fun i => "($" ++ Nat.repr (i + 1) ++ ")")]

theorem payloadCount_append (l₁ l₂ : List ExecRec) :
    payloadCount (l₁ ++ l₂) = payloadCount l₁ + payloadCount l₂ := by
  simp [payloadCount]

theorem recordInserted_inserted (total n : Nat) (s : SrvState) :
    (recordInserted total n s).inserted = s.inserted + n := by
  simp only [recordInserted]
  split <;> rfl

theorem recordInserted_execs (total n : Nat) (s : SrvState) :
    (recordInserted total n s).execs = s.execs := by
  simp only [recordInserted]
  split <;> rfl

theorem dbExec_execs (q : String) (args : List String) (s : SrvState) :
    (dbExec q args s).execs = s.execs ++ [⟨q, args, s.errs.headD false⟩] := rfl

theorem insertOne_inserted (total : Nat) (msg : String) (s : SrvState) :
    (insertOne total msg s).inserted = s.inserted + 1 := by
  simp [insertOne, recordInserted_inserted, dbExec]

theorem insertOne_execs (total : Nat) (msg : String) (s : SrvState) :
    (insertOne total msg s).execs =
      s.execs ++ [⟨singleInsertQuery, [msg], s.errs.headD false⟩] := by
  simp [insertOne, recordInserted_execs, dbExec]

theorem flush_batch (total : Nat) (b : BulkState) : (flush total b).batch = [] := by
  by_cases h : b.batch = []
  · simp [flush, h]
  · simp [flush, h]

theorem flush_sizeFlushes (total : Nat) (b : BulkState) :
    (flush total b).sizeFlushes = b.sizeFlushes := by
  by_cases h : b.batch = []
  · simp [flush, h]
  · simp [flush, h]

theorem flush_inserted (total : Nat) (b : BulkState) :
    (flush total b).shared.inserted = b.shared.inserted + b.batch.length := by
  by_cases h : b.batch = []
  · simp [flush, h]
  · simp [flush, h, recordInserted_inserted, dbExec]

theorem flush_execs_ne (total : Nat) (b : BulkState) (h : b.batch ≠ []) :
    (flush total b).shared.execs =
      b.shared.execs ++
        [⟨(buildBulkInsert b.batch).1, b.batch, b.shared.errs.headD false⟩] := by
  simp [flush, h, recordInserted_execs, dbExec, buildBulkInsert_args]

theorem flush_payload (total : Nat) (b : BulkState) :
    payloadCount (flush total b).shared.execs =
      payloadCount b.shared.execs + b.batch.length := by
  by_cases h : b.batch = []
  · simp [flush, h, payloadCount]
  · rw [flush_execs_ne total b h, payloadCount_append]
    simp [payloadCount]

/-! Accounting for the naive and buffered single-INSERT loops. -/

theorem runNaive_acct (total : Nat) (msgs : List String) (s : SrvState) :
    (runNaive total msgs s).inserted = s.inserted + msgs.length ∧
      (runNaive total msgs s).execs.map (fun r => (r.query, r.args)) =
        s.execs.map (fun r => (r.query, r.args)) ++
          msgs.map (fun m => (singleInsertQuery, [m])) := by
  induction msgs generalizing s with
  | nil => simp [runNaive]
  | cons m ms ih =>
      have hstep : runNaive total (m :: ms) s = runNaive total ms (insertOne total m s) := rfl
      obtain ⟨h1, h2⟩ := ih (insertOne total m s)
      rw [hstep]
      constructor
      · rw [h1, insertOne_inserted]
        simp only [List.length_cons]
        omega
      · rw [h2, insertOne_execs]
        simp

theorem runBuffered_eq_runNaive (total : Nat) (msgs : List String) (s : SrvState) :
    runBuffered total msgs s = runNaive total msgs s := rfl

theorem runNaive_payload (total : Nat) (msgs : List String) (s : SrvState) :
    payloadCount (runNaive total msgs s).execs =
      payloadCount s.execs + msgs.length := by
  induction msgs generalizing s with
  | nil => simp [runNaive]
  | cons m ms ih =>
      have hstep : runNaive total (m :: ms) s = runNaive total ms (insertOne total m s) := rfl
      rw [hstep, ih, insertOne_execs, payloadCount_append]
      simp [payloadCount]
      omega

/-! Accounting for one bulk worker iteration. -/

theorem bulkStep_acct (total : Nat) (b : BulkState) (ev : BulkEvent) :
    (bulkStep total b ev).shared.inserted + (bulkStep total b ev).batch.length =
      b.shared.inserted + b.batch.length +
        (match ev with | BulkEvent.msg _ => 1 | BulkEvent.tick => 0) := by
  cases ev with
  | msg m =>
      simp only [bulkStep]
      split
      · rw [flush_inserted, flush_batch]
        simp
        omega
      · simp
        omega
  | tick =>
      simp only [bulkStep]
      rw [flush_inserted, flush_batch]
      simp

theorem bulkStep_payload (total : Nat) (b : BulkState) (ev : BulkEvent) :
    payloadCount (bulkStep total b ev).shared.execs + b.shared.inserted =
      payloadCount b.shared.execs + (bulkStep total b ev).shared.inserted := by
  cases ev with
  | msg m =>
      simp only [bulkStep]
      split
      · rw [flush_payload, flush_inserted]
        simp
        omega
      · simp
  | tick =>
      simp only [bulkStep]
      rw [flush_payload, flush_inserted]
      omega

theorem bulkStep_batch_le (total : Nat) (b : BulkState) (ev : BulkEvent)
    (h : b.batch.length < batchSize) :
    (bulkStep total b ev).batch.length < batchSize := by
  cases ev with
  | msg m =>
      simp only [bulkStep]
      split
      · rw [flush_batch]
        simp [batchSize]
      · simp only [List.length_append, List.length_cons, List.length_nil] at *
        omega
  | tick =>
      simp only [bulkStep]
      rw [flush_batch]
      simp [batchSize]

theorem bulkStep_sizeFlushes (total : Nat) (b : BulkState) (ev : BulkEvent)
    (hlt : b.batch.length < batchSize)
    (h : ∀ n ∈ b.sizeFlushes, n ≤ batchSize) :
    ∀ n ∈ (bulkStep total b ev).sizeFlushes, n ≤ batchSize := by
  cases ev with
  | msg m =>
      simp only [bulkStep]
      split
      · rw [flush_sizeFlushes]
        intro n hn
        simp only [List.mem_append, List.mem_singleton] at hn
        rcases hn with hn | hn
        · exact h n hn
        · subst hn
          simp only [List.length_append, List.length_cons, List.length_nil]
          omega
      · exact h
  | tick =>
      simp only [bulkStep]
      rw [flush_sizeFlushes]
      exact h

theorem runBulkWorker_inv (total : Nat) (evs : List BulkEvent) (b : BulkState)
    (hlt : b.batch.length < batchSize)
    (h : ∀ n ∈ b.sizeFlushes, n ≤ batchSize) :
    (runBulkWorker total evs b).batch.length < batchSize ∧
      ∀ n ∈ (runBulkWorker total evs b).sizeFlushes, n ≤ batchSize := by
  induction evs generalizing b with
  | nil => exact ⟨hlt, h⟩
  | cons ev evs ih =>
      have hstep : runBulkWorker total (ev :: evs) b =
          runBulkWorker total evs (bulkStep total b ev) := rfl
      rw [hstep]
      exact ih (bulkStep total b ev) (bulkStep_batch_le total b ev hlt)
        (bulkStep_sizeFlushes total b ev hlt h)

/-! Accounting for the multi-worker bulk system. -/

theorem sysStep_length (total : Nat) (s : BulkSys) (ev : Nat × BulkEvent) :
    (sysStep total s ev).batches.length = s.batches.length := by
  simp only [sysStep]
  cases h : s.batches[ev.1]? with
  | none => rfl
  | some batch => simp

theorem batchSum_set (L : List (List String)) (w : Nat) (b nb : List String)
    (h : L[w]? = some b) :
    batchSum (L.set w nb) + b.length = batchSum L + nb.length := by
  induction L generalizing w with
  | nil => simp at h
  | cons x L ih =>
      cases w with
      | zero =>
          simp at h
          subst h
          simp [batchSum]
          omega
      | succ w =>
          simp at h
          have := ih w h
          simp [batchSum, List.set] at *
          omega

theorem sysStep_acct (total : Nat) (s : BulkSys) (ev : Nat × BulkEvent)
    (hw : ev.1 < s.batches.length) :
    (sysStep total s ev).shared.inserted + batchSum (sysStep total s ev).batches =
      s.shared.inserted + batchSum s.batches +
        (match ev.2 with | BulkEvent.msg _ => 1 | BulkEvent.tick => 0) := by
  cases hsome : s.batches[ev.1]? with
  | none =>
      rw [List.getElem?_eq_none_iff] at hsome
      omega
  | some batch =>
      simp only [sysStep, hsome]
      have hacct := bulkStep_acct total ⟨s.shared, batch, []⟩ ev.2
      have hset := batchSum_set s.batches ev.1 batch
        (bulkStep total ⟨s.shared, batch, []⟩ ev.2).batch hsome
      simp only at hacct
      omega

theorem sysStep_payload (total : Nat) (s : BulkSys) (ev : Nat × BulkEvent) :
    payloadCount (sysStep total s ev).shared.execs + s.shared.inserted =
      payloadCount s.shared.execs + (sysStep total s ev).shared.inserted := by
  simp only [sysStep]
  cases h : s.batches[ev.1]? with
  | none => rfl
  | some batch =>
      have := bulkStep_payload total ⟨s.shared, batch, []⟩ ev.2
      simpa using this

theorem runBulkSys_length (total : Nat) (evs : List (Nat × BulkEvent)) (s : BulkSys) :
    (runBulkSys total evs s).batches.length = s.batches.length := by
  induction evs generalizing s with
  | nil => rfl
  | cons ev evs ih =>
      have hstep : runBulkSys total (ev :: evs) s =
          runBulkSys total evs (sysStep total s ev) := rfl
      rw [hstep, ih, sysStep_length]

theorem countMsgs_cons (ev : Nat × BulkEvent) (evs : List (Nat × BulkEvent)) :
    countMsgs (ev :: evs) =
      countMsgs evs + (match ev.2 with | BulkEvent.msg _ => 1 | BulkEvent.tick => 0) := by
  obtain ⟨w, e⟩ := ev
  cases e <;> simp [countMsgs]

theorem runBulkSys_acct (total : Nat) (evs : List (Nat × BulkEvent)) (s : BulkSys)
    (hv : ∀ ev ∈ evs, ev.1 < s.batches.length) :
    (runBulkSys total evs s).shared.inserted + batchSum (runBulkSys total evs s).batches =
      s.shared.inserted + batchSum s.batches + countMsgs evs ∧
      payloadCount (runBulkSys total evs s).shared.execs + s.shared.inserted =
        payloadCount s.shared.execs + (runBulkSys total evs s).shared.inserted := by
  induction evs generalizing s with
  | nil => simp [runBulkSys, countMsgs]
  | cons ev evs ih =>
      have hstep : runBulkSys total (ev :: evs) s =
          runBulkSys total evs (sysStep total s ev) := rfl
      have hw : ev.1 < s.batches.length := hv ev (List.mem_cons_self ev evs)
      have hv2 : ∀ e ∈ evs, e.1 < (sysStep total s ev).batches.length := by
        intro e he
        rw [sysStep_length]
        exact hv e (List.mem_cons_of_mem ev he)
      obtain ⟨ih1, ih2⟩ := ih (sysStep total s ev) hv2
      have hstepacct := sysStep_acct total s ev hw
      have hsteppay := sysStep_payload total s ev
      rw [hstep]
      rw [countMsgs_cons]
      constructor
      · cases hev : ev.2 <;> simp [hev] at hstepacct ⊢ <;> omega
      · omega

/-! The final round of ticker fires empties every batch. -/

theorem countMsgs_ticks (ws : List Nat) :
    countMsgs (ws.map (fun w => (w, BulkEvent.tick))) = 0 := by
  induction ws with
  | nil => rfl
  | cons w ws ih => simpa [countMsgs] using ih

theorem sysStep_get_ne (total : Nat) (s : BulkSys) (w w₂ : Nat) (ev : BulkEvent)
    (h : w₂ ≠ w) :
    ((sysStep total s (w₂, ev)).batches)[w]? = s.batches[w]? := by
  simp only [sysStep]
  cases hsome : s.batches[w₂]? with
  | none => rfl
  | some batch => simp [List.getElem?_set_ne h]

theorem sysStep_tick_get (total : Nat) (s : BulkSys) (w : Nat)
    (hw : w < s.batches.length) :
    ((sysStep total s (w, BulkEvent.tick)).batches)[w]? = some [] := by
  cases hsome : s.batches[w]? with
  | none =>
      rw [List.getElem?_eq_none_iff] at hsome
      omega
  | some batch =>
      simp only [sysStep, hsome]
      have hb : (bulkStep total ⟨s.shared, batch, []⟩ BulkEvent.tick).batch = [] := by
        simp only [bulkStep]
        exact flush_batch total _
      rw [hb]
      simp [List.getElem?_set_self, hw]

theorem tickRun_get (total : Nat) (ws : List Nat) (s : BulkSys) (w : Nat)
    (h : (w ∈ ws ∧ w < s.batches.length) ∨ s.batches[w]? = some []) :
    ((runBulkSys total (ws.map (fun w => (w, BulkEvent.tick))) s).batches)[w]? =
      some [] := by
  induction ws generalizing s with
  | nil =>
      rcases h with ⟨hmem, _⟩ | h
      · simp at hmem
      · simpa [runBulkSys] using h
  | cons w₂ ws ih =>
      have hstep : runBulkSys total ((w₂ :: ws).map (fun w => (w, BulkEvent.tick))) s =
          runBulkSys total (ws.map (fun w => (w, BulkEvent.tick)))
            (sysStep total s (w₂, BulkEvent.tick)) := rfl
      rw [hstep]
      by_cases hww : w₂ = w
      · subst hww
        have hlt : w₂ < s.batches.length := by
          rcases h with ⟨_, hlt⟩ | h
          · exact hlt
          · obtain ⟨hlt, _⟩ := List.getElem?_eq_some_iff.mp h
            exact hlt
        exact ih _ (Or.inr (sysStep_tick_get total s w₂ hlt))
      · rcases h with ⟨hmem, hlt⟩ | h
        · rcases List.mem_cons.mp hmem with hw2 | hmem2
          · exact absurd hw2.symm hww
          · exact ih _ (Or.inl ⟨hmem2, by rwa [sysStep_length]⟩)
        · exact ih _ (Or.inr (by rw [sysStep_get_ne total s w w₂ BulkEvent.tick hww]; exact h))

theorem batchSum_zero_of_empty (L : List (List String))
    (h : ∀ w, w < L.length → L[w]? = some []) : batchSum L = 0 := by
  induction L with
  | nil => rfl
  | cons x L ih =>
      have h0 := h 0 (by simp)
      simp at h0
      subst h0
      have : batchSum L = 0 := by
        apply ih
        intro w hw
        have := h (w + 1) (by simpa using Nat.succ_lt_succ hw)
        simpa using this
      simp [batchSum] at this ⊢
      exact this

theorem flushAll_batchSum (total : Nat) (s : BulkSys) :
    batchSum (flushAll total s).batches = 0 := by
  apply batchSum_zero_of_empty
  intro w hw
  rw [flushAll] at hw ⊢
  rw [runBulkSys_length] at hw
  exact tickRun_get total (List.range s.batches.length) s w
    (Or.inl ⟨List.mem_range.mpr hw, hw⟩)

theorem flushAll_acct (total : Nat) (s : BulkSys) :
    (flushAll total s).shared.inserted = s.shared.inserted + batchSum s.batches ∧
      payloadCount (flushAll total s).shared.execs + s.shared.inserted =
        payloadCount s.shared.execs + (flushAll total s).shared.inserted := by
  have hv : ∀ ev ∈ (List.range s.batches.length).map (fun w => (w, BulkEvent.tick)),
      ev.1 < s.batches.length := by
    intro ev hev
    simp only [List.mem_map] at hev
    obtain ⟨w, hw, rfl⟩ := hev
    simpa using List.mem_range.mp hw
  have h := runBulkSys_acct total
    ((List.range s.batches.length).map (fun w => (w, BulkEvent.tick))) s hv
  rw [countMsgs_ticks] at h
  have hzero := flushAll_batchSum total s
  rw [flushAll] at hzero ⊢
  omega

/-! Every executed bulk statement carries a non-empty batch, because flush
returns before building a statement when the batch is empty. -/

theorem flush_execs_nonempty (total : Nat) (b : BulkState)
    (h : ∀ r ∈ b.shared.execs, r.args ≠ []) :
    ∀ r ∈ (flush total b).shared.execs, r.args ≠ [] := by
  by_cases hb : b.batch = []
  · simpa [flush, hb] using h
  · rw [flush_execs_ne total b hb]
    intro r hr
    rcases List.mem_append.mp hr with hr | hr
    · exact h r hr
    · simp at hr
      subst hr
      exact hb

theorem bulkStep_execs_nonempty (total : Nat) (b : BulkState) (ev : BulkEvent)
    (h : ∀ r ∈ b.shared.execs, r.args ≠ []) :
    ∀ r ∈ (bulkStep total b ev).shared.execs, r.args ≠ [] := by
  cases ev with
  | msg m =>
      simp only [bulkStep]
      split
      · exact flush_execs_nonempty total _ h
      · exact h
  | tick => exact flush_execs_nonempty total b h

theorem sysStep_execs_nonempty (total : Nat) (s : BulkSys) (ev : Nat × BulkEvent)
    (h : ∀ r ∈ s.shared.execs, r.args ≠ []) :
    ∀ r ∈ (sysStep total s ev).shared.execs, r.args ≠ [] := by
  simp only [sysStep]
  cases hsome : s.batches[ev.1]? with
  | none => exact h
  | some batch => exact bulkStep_execs_nonempty total ⟨s.shared, batch, []⟩ ev.2 h

theorem runBulkSys_execs_nonempty (total : Nat) (evs : List (Nat × BulkEvent))
    (s : BulkSys) (h : ∀ r ∈ s.shared.execs, r.args ≠ []) :
    ∀ r ∈ (runBulkSys total evs s).shared.execs, r.args ≠ [] := by
  induction evs generalizing s with
  | nil => exact h
  | cons ev evs ih => exact ih (sysStep total s ev) (sysStep_execs_nonempty total s ev h)

/-! Lemmas about the interleaved semantics of the completion check. -/

theorem wactions_append (w : Nat) (l₁ l₂ : List (Nat × CAct)) :
    wactions w (l₁ ++ l₂) = wactions w l₁ ++ wactions w l₂ := by
  simp [wactions]

theorem totalAdds_append (l₁ l₂ : List (Nat × CAct)) :
    totalAdds (l₁ ++ l₂) = totalAdds l₁ + totalAdds l₂ := by
  simp [totalAdds]

theorem totalAdds_cons (a : Nat × CAct) (l : List (Nat × CAct)) :
    totalAdds (a :: l) = kOf a + totalAdds l := by
  simp [totalAdds]

theorem wactions_pairChain_self (k : Nat) : wactions 0 (pairChain k) = cpairs k := by
  induction k with
  | zero => rfl
  | succ k ih => simp [pairChain, cpairs, wactions, List.filter] at ih ⊢; exact ih

theorem wactions_pairChain_other (k w : Nat) (hw : w ≠ 0) :
    wactions w (pairChain k) = [] := by
  induction k with
  | zero => rfl
  | succ k ih =>
      have h0 : ((0 : Nat) == w) = false := by
        simp
        omega
      simp [pairChain, wactions, List.filter, h0] at ih ⊢
      exact ih

theorem okFrom_cpairs_append (k : Nat) (l : List CAct) :
    okFrom false (cpairs k ++ l) = okFrom false l := by
  induction k with
  | zero => rfl
  | succ k ih => simpa [cpairs, okFrom] using ih

theorem pairChain_workers (k : Nat) : ∀ a ∈ pairChain k, a.1 = 0 := by
  induction k with
  | zero => simp [pairChain]
  | succ k ih =>
      intro a ha
      simp only [pairChain, List.mem_cons] at ha
      rcases ha with rfl | rfl | ha
      · rfl
      · rfl
      · exact ih a ha

theorem totalAdds_pairChain (k : Nat) : totalAdds (pairChain k) = k := by
  induction k with
  | zero => rfl
  | succ k ih => simp [pairChain, totalAdds, kOf] at ih ⊢; omega

theorem foldl_pairChain (total k c g : Nat) (h : c + k < total) :
    (pairChain k).foldl (cstep total) (c, g) = (c + k, g) := by
  induction k generalizing c with
  | zero => simp [pairChain]
  | succ k ih =>
      have hne : ¬(c + 1 = total) := by omega
      have hstep : (pairChain (k + 1)).foldl (cstep total) (c, g) =
          (pairChain k).foldl (cstep total)
            (cstep total (cstep total (c, g) (0, CAct.add 1)) (0, CAct.check)) := rfl
      rw [hstep]
      simp only [cstep, if_neg hne]
      rw [ih (c + 1) (by omega)]
      simp [Nat.add_assoc, Nat.add_comm]
      omega

theorem lastAdd_decomp (sched : List (Nat × CAct)) (h : totalAdds sched ≠ 0) :
    ∃ p w k q, sched = p ++ (w, CAct.add k) :: q ∧ totalAdds q = 0 := by
  induction sched with
  | nil => simp [totalAdds] at h
  | cons a rest ih =>
      by_cases hr : totalAdds rest = 0
      · have hk : kOf a ≠ 0 := by
          rw [totalAdds_cons] at h
          omega
        obtain ⟨w, act⟩ := a
        cases act with
        | add k => exact ⟨[], w, k, rest, rfl, hr⟩
        | check => simp [kOf] at hk
      · obtain ⟨p, w, k, q, heq, hq⟩ := ih hr
        exact ⟨a :: p, w, k, q, by rw [heq]; simp, hq⟩

theorem okFrom_true_check (y : List CAct) (h : okFrom true y = true) :
    CAct.check ∈ y := by
  cases y with
  | nil => simp [okFrom] at h
  | cons a y2 =>
      cases a with
      | add k => simp [okFrom] at h
      | check => exact List.mem_cons_self _ _

theorem okFrom_add_mid (x : List CAct) : ∀ (b : Bool) (k : Nat) (y : List CAct),
    okFrom b (x ++ CAct.add k :: y) = true → CAct.check ∈ y := by
  induction x with
  | nil =>
      intro b k y h
      cases b with
      | false => exact okFrom_true_check y (by simpa [okFrom] using h)
      | true => simp [okFrom] at h
  | cons a x ih =>
      intro b k y h
      simp only [List.cons_append] at h
      cases b with
      | false =>
          cases a with
          | add k2 => exact ih true k y (by simpa [okFrom] using h)
          | check => simp [okFrom] at h
      | true =>
          cases a with
          | add k2 => simp [okFrom] at h
          | check => exact ih false k y (by simpa [okFrom] using h)

theorem wactions_cons_self (w : Nat) (act : CAct) (q : List (Nat × CAct)) :
    wactions w ((w, act) :: q) = act :: wactions w q := by
  simp [wactions, List.filter]

theorem check_mem_split (w : Nat) (q : List (Nat × CAct))
    (h : CAct.check ∈ wactions w q) :
    ∃ q1 q2, q = q1 ++ (w, CAct.check) :: q2 := by
  simp only [wactions, List.mem_map] at h
  obtain ⟨a, ha, ha2⟩ := h
  obtain ⟨haq, haw⟩ := List.mem_filter.mp ha
  have haeq : a = (w, CAct.check) := by
    obtain ⟨a1, a2⟩ := a
    simp at haw ha2
    simp [haw, ha2]
  subst haeq
  exact List.append_of_mem haq

theorem foldl_counter (total : Nat) (l : List (Nat × CAct)) :
    ∀ c g, (l.foldl (cstep total) (c, g)).1 = c + totalAdds l := by
  induction l with
  | nil => simp [totalAdds]
  | cons a l ih =>
      intro c g
      obtain ⟨w, act⟩ := a
      cases act with
      | add k =>
          have hstep : ((w, CAct.add k) :: l).foldl (cstep total) (c, g) =
              l.foldl (cstep total) (c + k, g) := rfl
          rw [hstep, ih (c + k) g, totalAdds_cons]
          simp [kOf]
          omega
      | check =>
          have hstep : ((w, CAct.check) :: l).foldl (cstep total) (c, g) =
              l.foldl (cstep total) (c, if c = total then g + 1 else g) := rfl
          rw [hstep, ih c _, totalAdds_cons]
          simp [kOf]

theorem foldl_signals_mono (total : Nat) (l : List (Nat × CAct)) :
    ∀ c g, g ≤ (l.foldl (cstep total) (c, g)).2 := by
  induction l with
  | nil => simp
  | cons a l ih =>
      intro c g
      obtain ⟨w, act⟩ := a
      cases act with
      | add k =>
          have hstep : ((w, CAct.add k) :: l).foldl (cstep total) (c, g) =
              l.foldl (cstep total) (c + k, g) := rfl
          rw [hstep]
          exact ih (c + k) g
      | check =>
          have hstep : ((w, CAct.check) :: l).foldl (cstep total) (c, g) =
              l.foldl (cstep total) (c, if c = total then g + 1 else g) := rfl
          rw [hstep]
          have h2 := ih c (if c = total then g + 1 else g)
          have h3 : g ≤ (if c = total then g + 1 else g) := by split <;> omega
          omega

/-!
Claim theorems. Each claim of the specification is settled by exactly one
theorem below; shared reasoning lives in the helper lemmas above.
-/

/-- C1, counterexample. The claim states that for every scheduling
interleaving of the concurrent workers the completion message is
observed exactly once when the counter reaches totalMessages, because
the compared value is the post-increment value of the counter. This is
false for the source: the code discards the return value of
atomic.AddInt64 and performs a separate atomic.LoadInt64, so two
workers that both increment before either loads both read the final
total. Witnessed here by a well-formed two-worker interleaving whose
increments sum to exactly totalMessages and in which the completion
line is emitted twice. -/
theorem c1_counterexample :
    (∀ a ∈ badSched, a.1 < 2) ∧
      (∀ w, w < 2 → isPairs (wactions w badSched) = true) ∧
      totalAdds badSched = totalMessages ∧
      (crun totalMessages badSched).2 = 2 := by
  refine ⟨?_, ?_, ?_, ?_⟩
  · intro a ha
    simp only [badSched] at ha
    rcases List.mem_append.mp ha with ha | ha
    · have := pairChain_workers 999998 a ha
      omega
    · simp only [List.mem_cons] at ha
      rcases ha with rfl | rfl | rfl | rfl | ha
      · omega
      · omega
      · omega
      · omega
      · simp at ha
  · intro w hw
    have hw01 : w = 0 ∨ w = 1 := by omega
    rcases hw01 with rfl | rfl
    · simp only [badSched]
      rw [wactions_append, wactions_pairChain_self]
      have h4 : wactions 0
          [(0, CAct.add 1), (1, CAct.add 1), (0, CAct.check), (1, CAct.check)] =
          [CAct.add 1, CAct.check] := rfl
      rw [h4, isPairs, okFrom_cpairs_append]
      rfl
    · simp only [badSched]
      rw [wactions_append, wactions_pairChain_other 999998 1 (by omega)]
      rfl
  · simp only [badSched]
    rw [totalAdds_append, totalAdds_pairChain]
    decide
  · simp only [badSched]
    rw [crun, List.foldl_append, foldl_pairChain totalMessages 999998 0 0 (by decide)]
    decide

/-- C1, amended claim. What does hold for the source code: across every
well-formed interleaving of workers whose atomic increments sum to the
positive expected total, the completion message is emitted at least
once (the worker that performs the final increment still has its own
load-and-compare ahead of it, and every load after the final increment
reads the total), but not necessarily exactly once. -/
theorem c1_amended (W total : Nat) (sched : List (Nat × CAct))
    (hworkers : ∀ a ∈ sched, a.1 < W)
    (hpairs : ∀ w, w < W → isPairs (wactions w sched) = true)
    (htotal : totalAdds sched = total) (hpos : 0 < total) :
    1 ≤ (crun total sched).2 := by
  have hne : totalAdds sched ≠ 0 := by omega
  obtain ⟨p, w, k, q, rfl, hq⟩ := lastAdd_decomp sched hne
  have hwlt : w < W := hworkers (w, CAct.add k) (by simp)
  have hp := hpairs w hwlt
  rw [wactions_append, wactions_cons_self, isPairs] at hp
  have hcheck : CAct.check ∈ wactions w q :=
    okFrom_add_mid (wactions w p) false k (wactions w q) hp
  obtain ⟨q1, q2, rfl⟩ := check_mem_split w q hcheck
  have hq2 : totalAdds q2 = 0 ∧ totalAdds q1 = 0 := by
    rw [totalAdds_append, totalAdds_cons] at hq
    simp [kOf] at hq
    omega
  have hassoc : p ++ (w, CAct.add k) :: (q1 ++ (w, CAct.check) :: q2) =
      (p ++ (w, CAct.add k) :: q1) ++ (w, CAct.check) :: q2 := by simp
  rw [crun, hassoc, List.foldl_append]
  have hcu : ((p ++ (w, CAct.add k) :: q1).foldl (cstep total) (0, 0)).1 =
      totalAdds (p ++ (w, CAct.add k) :: q1) := by
    simpa using foldl_counter total (p ++ (w, CAct.add k) :: q1) 0 0
  have hutotal : totalAdds (p ++ (w, CAct.add k) :: q1) = total := by
    rw [totalAdds_append, totalAdds_cons] at htotal ⊢
    rw [totalAdds_append, totalAdds_cons] at htotal
    simp [kOf] at htotal ⊢
    omega
  set cu := (p ++ (w, CAct.add k) :: q1).foldl (cstep total) (0, 0) with hcudef
  have hstep : ((w, CAct.check) :: q2).foldl (cstep total) cu =
      q2.foldl (cstep total) (cu.1, if cu.1 = total then cu.2 + 1 else cu.2) := by
    have : cstep total cu (w, CAct.check) =
        (cu.1, if cu.1 = total then cu.2 + 1 else cu.2) := rfl
    rw [List.foldl_cons, this]
  rw [hstep, if_pos (by rw [hcu, hutotal])]
  have hmono := foldl_signals_mono total q2 cu.1 (cu.2 + 1)
  omega

/-- C1, witness for the amended theorem: a single worker processing one
message with expected total 1 emits the completion line at least once. -/
theorem c1_amended_witness :
    (∀ a ∈ [((0 : Nat), CAct.add 1), (0, CAct.check)], a.1 < 1) ∧
      (∀ w, w < 1 → isPairs (wactions w [(0, CAct.add 1), (0, CAct.check)]) = true) ∧
      totalAdds [((0 : Nat), CAct.add 1), (0, CAct.check)] = 1 ∧ 0 < 1 ∧
      1 ≤ (crun 1 [(0, CAct.add 1), (0, CAct.check)]).2 := by
  refine ⟨by decide, ?_, by decide, by decide, ?_⟩
  · intro w hw
    have hw0 : w = 0 := by omega
    subst hw0
    decide
  · exact c1_amended 1 1 [(0, CAct.add 1), (0, CAct.check)] (by decide)
      (by
        intro w hw
        have hw0 : w = 0 := by omega
        subst hw0
        decide)
      (by decide) (by decide)

/-- C8: the intake channel of buffered and bulk modes has capacity
channelBufferSize = 500000; in every reachable channel state the
occupancy never exceeds the capacity, and the send history is exactly
the receive history followed by the current buffer, so a send never
errors and never discards a message. A send from a full buffer is not
enabled: the sender blocks until a receive frees capacity. -/
theorem c8_backpressure (s : ChanState) (h : ChanReach channelBufferSize s) :
    s.buf.length ≤ channelBufferSize ∧ s.sent = s.received ++ s.buf := by
  induction h with
  | refl => simp [chanInit]
  | tail hreach hstep ih =>
      obtain ⟨ih1, ih2⟩ := ih
      cases hstep with
      | send m t hlt =>
          constructor
          · simp
            omega
          · simp [ih2]
      | recv m rest t hbuf =>
          constructor
          · rw [hbuf] at ih1
            simp at ih1 ⊢
            omega
          · rw [ih2, hbuf]
            simp

/-- C8 witness: after one send of one message the channel is reachable,
within capacity, and the message is still accounted for. -/
theorem c8_witness :
    ChanReach channelBufferSize ⟨["a"], ["a"], []⟩ ∧
      (["a"] : List String).length ≤ channelBufferSize ∧
      (["a"] : List String) = [] ++ ["a"] := by
  have hreach : ChanReach channelBufferSize ⟨["a"], ["a"], []⟩ :=
    Relation.ReflTransGen.single (ChanStep.send "a" chanInit (by decide))
  have h := c8_backpressure ⟨["a"], ["a"], []⟩ hreach
  exact ⟨hreach, h.1, h.2⟩

/-- Helper: the batches of freshly spawned workers hold no messages. -/
theorem batchSum_replicate_nil (W : Nat) :
    batchSum (List.replicate W ([] : List String)) = 0 := by
  simp [batchSum]

/-- C2: the progress counter moves by the same amount whether a store
write fails or succeeds. Each naive or buffered message increments
insertedCount by exactly 1 and records the write together with its
(possibly failed) outcome, over every error oracle; each bulk flush
adds exactly the batch length, over every error oracle; and the worker
loop continues with the remaining messages after any write. -/
theorem c2_error_counting :
    (∀ total msg s, (insertOne total msg s).inserted = s.inserted + 1 ∧
        (insertOne total msg s).execs =
          s.execs ++ [⟨singleInsertQuery, [msg], s.errs.headD false⟩]) ∧
      (∀ total b, (flush total b).shared.inserted =
          b.shared.inserted + b.batch.length) ∧
      (∀ total m msgs s, runNaive total (m :: msgs) s =
          runNaive total msgs (insertOne total m s)) :=
  ⟨fun total msg s => ⟨insertOne_inserted total msg s, insertOne_execs total msg s⟩,
    fun total b => flush_inserted total b,
    fun _ _ _ _ => rfl⟩

/-- C3: for a non-empty batch of length n, buildBulkInsert binds the
batch itself, in order, as the argument list, and produces the
multi-value statement whose placeholders are exactly the n tuples
($1) through ($n). -/
theorem c3_bulk_statement_shape (batch : List String) (h : batch ≠ []) :
    (buildBulkInsert batch).2 = batch ∧
      (buildBulkInsert batch).1 =
        "INSERT INTO messages (payload) VALUES " ++
          String.intercalate ","
            ((List.range batch.length).map (fun i => "($" ++ Nat.repr (i + 1) ++ ")")) :=
  ⟨buildBulkInsert_args batch, buildBulkInsert_query batch⟩

/-- C3 witness: a three-message batch yields arguments in order and the
three placeholders ($1),($2),($3). -/
theorem c3_witness :
    (["a", "b", "c"] : List String) ≠ [] ∧
      (buildBulkInsert ["a", "b", "c"]).2 = ["a", "b", "c"] ∧
      (buildBulkInsert ["a", "b", "c"]).1 =
        "INSERT INTO messages (payload) VALUES " ++
          String.intercalate ","
            ((List.range (["a", "b", "c"] : List String).length).map
              (fun i => "($" ++ Nat.repr (i + 1) ++ ")")) := by
  have h := c3_bulk_statement_shape ["a", "b", "c"] (by decide)
  exact ⟨by decide, h.1, h.2⟩

/-- C4: a flush triggered by the size trigger never covers more than
batchSize messages: every entry of the ghost log of size-triggered
flush lengths is at most batchSize, and between iterations the batch
always holds strictly fewer than batchSize messages. -/
theorem c4_size_flush_bound (total : Nat) (errs : List Bool) (evs : List BulkEvent) :
    ((runBulkWorker total evs ⟨mkSrv errs, [], []⟩).sizeFlushes).all
        (fun n => decide (n ≤ batchSize)) = true ∧
      (runBulkWorker total evs ⟨mkSrv errs, [], []⟩).batch.length < batchSize := by
  have h := runBulkWorker_inv total evs ⟨mkSrv errs, [], []⟩
    (by simp [batchSize]) (by simp)
  refine ⟨?_, h.1⟩
  rw [List.all_eq_true]
  intro n hn
  exact decide_eq_true (h.2 n hn)

/-- C5: flushing a non-empty batch executes exactly one store write whose
statement covers every message of the batch in order, increments
insertedCount by the batch length, and resets the batch to empty; the
reset happens whether or not the write failed (the error oracle and
the recorded failure flag are arbitrary). -/
theorem c5_flush_effect (total : Nat) (b : BulkState) (h : b.batch ≠ []) :
    (flush total b).shared.execs =
        b.shared.execs ++
          [⟨(buildBulkInsert b.batch).1, b.batch, b.shared.errs.headD false⟩] ∧
      (flush total b).shared.inserted = b.shared.inserted + b.batch.length ∧
      (flush total b).batch = [] :=
  ⟨flush_execs_ne total b h, flush_inserted total b, flush_batch total b⟩

/-- C5 witness: a two-message batch whose write fails is still recorded,
still counted, and still reset. -/
theorem c5_witness :
    (flush 100 ⟨⟨7, 0, [], [true]⟩, ["x", "y"], []⟩).shared.execs =
        [⟨(buildBulkInsert ["x", "y"]).1, ["x", "y"], true⟩] ∧
      (flush 100 ⟨⟨7, 0, [], [true]⟩, ["x", "y"], []⟩).shared.inserted = 9 ∧
      (flush 100 ⟨⟨7, 0, [], [true]⟩, ["x", "y"], []⟩).batch = [] := by
  have h := c5_flush_effect 100 ⟨⟨7, 0, [], [true]⟩, ["x", "y"], []⟩ (by decide)
  exact ⟨by simpa using h.1, by simpa using h.2.1, h.2.2⟩

/-- C6: with no write failures, after all messages are processed and the
final timer flush runs, insertedCount equals exactly the number N of
delivered messages and the payloads across all executed statements also
sum to N, in each mode: naive, buffered, and the multi-worker bulk
system under any scheduling of deliveries and ticks. -/
theorem c6_no_loss :
    (∀ total msgs, (runNaive total msgs (mkSrv [])).inserted = msgs.length ∧
        payloadCount (runNaive total msgs (mkSrv [])).execs = msgs.length) ∧
      (∀ total msgs, (runBuffered total msgs (mkSrv [])).inserted = msgs.length ∧
        payloadCount (runBuffered total msgs (mkSrv [])).execs = msgs.length) ∧
      ∀ total W evs, (∀ ev ∈ evs, ev.1 < W) →
        (flushAll total (runBulkSys total evs
            ⟨mkSrv [], List.replicate W []⟩)).shared.inserted = countMsgs evs ∧
          payloadCount (flushAll total (runBulkSys total evs
            ⟨mkSrv [], List.replicate W []⟩)).shared.execs = countMsgs evs := by
  refine ⟨?_, ?_, ?_⟩
  · intro total msgs
    have h1 := (runNaive_acct total msgs (mkSrv [])).1
    have h2 := runNaive_payload total msgs (mkSrv [])
    simp [mkSrv, payloadCount] at h1 h2
    exact ⟨h1, h2⟩
  · intro total msgs
    rw [runBuffered_eq_runNaive]
    have h1 := (runNaive_acct total msgs (mkSrv [])).1
    have h2 := runNaive_payload total msgs (mkSrv [])
    simp [mkSrv, payloadCount] at h1 h2
    exact ⟨h1, h2⟩
  · intro total W evs hv
    have hv2 : ∀ ev ∈ evs, ev.1 < (⟨mkSrv [], List.replicate W []⟩ : BulkSys).batches.length := by
      intro ev hev
      simpa using hv ev hev
    obtain ⟨h1, h2⟩ := runBulkSys_acct total evs ⟨mkSrv [], List.replicate W []⟩ hv2
    obtain ⟨h3, h4⟩ := flushAll_acct total (runBulkSys total evs ⟨mkSrv [], List.replicate W []⟩)
    have e1 : (⟨mkSrv [], List.replicate W []⟩ : BulkSys).shared.inserted = 0 := rfl
    have e2 : payloadCount (⟨mkSrv [], List.replicate W []⟩ : BulkSys).shared.execs = 0 := rfl
    have hz : batchSum (⟨mkSrv [], List.replicate W []⟩ : BulkSys).batches = 0 :=
      batchSum_replicate_nil W
    constructor
    · omega
    · omega

/-- C6 witness: two workers receiving three messages between them, then
the final flush: the counter and the written payloads both total 3. -/
theorem c6_witness :
    (flushAll 3 (runBulkSys 3
        [(0, BulkEvent.msg "a"), (1, BulkEvent.msg "b"), (0, BulkEvent.msg "c")]
        ⟨mkSrv [], List.replicate 2 []⟩)).shared.inserted =
      countMsgs [(0, BulkEvent.msg "a"), (1, BulkEvent.msg "b"), (0, BulkEvent.msg "c")] ∧
      payloadCount (flushAll 3 (runBulkSys 3
        [(0, BulkEvent.msg "a"), (1, BulkEvent.msg "b"), (0, BulkEvent.msg "c")]
        ⟨mkSrv [], List.replicate 2 []⟩)).shared.execs =
      countMsgs [(0, BulkEvent.msg "a"), (1, BulkEvent.msg "b"), (0, BulkEvent.msg "c")] :=
  c6_no_loss.2.2 3 2
    [(0, BulkEvent.msg "a"), (1, BulkEvent.msg "b"), (0, BulkEvent.msg "c")]
    (by decide)

/-- C7: flushing an empty batch is a complete no-op: the worker state --
including the store log, the counter, the signal count and the batch --
is returned unchanged. -/
theorem c7_empty_flush_noop (total : Nat) (b : BulkState) (h : b.batch = []) :
    flush total b = b := by
  simp [flush, h]

/-- C7 witness: flushing the freshly created empty batch changes nothing. -/
theorem c7_witness : flush 5 ⟨mkSrv [], [], []⟩ = ⟨mkSrv [], [], []⟩ :=
  c7_empty_flush_noop 5 ⟨mkSrv [], [], []⟩ rfl

/-- C9: in naive mode every received message is written synchronously on
the receiving path as one single-parameter INSERT, in order, and each
write increments insertedCount by exactly 1, so after processing any
sequence of messages the counter equals its length; in particular 10
sequential messages yield 10 one-parameter statements and a counter
of 10. -/
theorem c9_naive_direct (total : Nat) (msgs : List String) (errs : List Bool) :
    (runNaive total msgs (mkSrv errs)).inserted = msgs.length ∧
      (runNaive total msgs (mkSrv errs)).execs.map (fun r => (r.query, r.args)) =
        msgs.map (fun m => (singleInsertQuery, [m])) := by
  obtain ⟨h1, h2⟩ := runNaive_acct total msgs (mkSrv errs)
  constructor
  · rw [h1]
    simp [mkSrv]
  · rw [h2]
    simp [mkSrv]

/-- C10: buildBulkInsert applied to the empty batch would produce the
malformed statement ending in the keyword VALUES with no tuples and an
empty argument list, but this input is unreachable through flush: over
every bulk system run, every executed statement has a non-empty
argument list because flush returns early on an empty batch. -/
theorem c10_nonempty_statements :
    buildBulkInsert [] = ("INSERT INTO messages (payload) VALUES ", []) ∧
      ∀ total evs errs W,
        ((runBulkSys total evs ⟨mkSrv errs, List.replicate W []⟩).shared.execs).all
          (fun r => !r.args.isEmpty) = true := by
  constructor
  · decide
  · intro total evs errs W
    rw [List.all_eq_true]
    intro r hr
    have h := runBulkSys_execs_nonempty total evs ⟨mkSrv errs, List.replicate W []⟩
      (by simp [mkSrv]) r hr
    simpa using h

end WsPg
